import Mathlib

/-!
Verification development for the `mysh` interactive shell (`src/mysh.c`).

The shell's pure core — the tokenizer with `$VAR` expansion, the
pipeline/redirection parser, alias expansion, the job-id allocator and the
shell-variable table — is embedded shallowly below.  Strings are modelled as
`List Char` (the C code works on NUL-terminated byte strings; no input byte
is NUL).  The process environment and the shell-variable table are modelled
as association lists searched front to back, exactly like the C arrays.
Fixed C buffer sizes (4096-byte token buffer, 4090-byte expansion output,
127-byte variable name, 256-token array, 128-argument array, 100-variable
table, 128-job table) are carried over literally.  Where a full C buffer
makes the scanning loop stop advancing (an infinite loop in the source), the
embedded tokenizer returns `none`.
-/

/-- Double-quote character (byte 34). -/
def dquote : Char := Char.ofNat 34

/-- Single-quote character (byte 39). -/
def squote : Char := Char.ofNat 39

/-- Backslash character (byte 92). -/
def bslash : Char := Char.ofNat 92

/-- Horizontal tab character (byte 9). -/
def tabCh : Char := Char.ofNat 9

/-- C `isspace` in the "C" locale: space plus the five control characters
`\t \n \v \f \r` (bytes 9–13).  Used by `tokenize` in `mysh.c`. -/
def cIsSpace (c : Char) : Bool :=
  decide (c = ' ' ∨ (9 ≤ c.toNat ∧ c.toNat ≤ 13))

/-- The character class gathered after `$` by `expand_env_vars`
(`mysh.c:209`): C `isalnum` in the "C" locale, or underscore. -/
def isVarChar (c : Char) : Bool :=
  decide ((65 ≤ c.toNat ∧ c.toNat ≤ 90) ∨ (97 ≤ c.toNat ∧ c.toNat ≤ 122) ∨
    (48 ≤ c.toNat ∧ c.toNat ≤ 57) ∨ c = '_')

/-- First-match association-list lookup: the search order of the C loops over
`shell_vars` and `aliases`, and of `getenv` over the environment. -/
def lookupVar : List (List Char × List Char) → List Char → Option (List Char)
  | [], _ => none
  | (a, b) :: t, n => if a = n then some b else lookupVar t n

/-- The variable name gathered after a `$` by `expand_env_vars`
(`mysh.c:206-213`): the maximal run of `isVarChar` characters following the
`$`, capped at 127 characters by the `var[128]` buffer. -/
def expName (rest : List Char) : List Char :=
  (rest.takeWhile isVarChar).take 127

/-- The replacement text for a `$`-name (`mysh.c:215-222`): the first shell
variable with that name, else the process-environment entry, else nothing. -/
def expVal (vars env : List (List Char × List Char)) (rest : List Char) :
    List Char :=
  match lookupVar vars (expName rest) with
  | some v => v
  | none =>
    match lookupVar env (expName rest) with
    | some v => v
    | none => []

/-- Loop body of `expand_env_vars` (`mysh.c:200-233`).  `ri` is the output
cursor into the 4096-byte `result` buffer; the loop runs while `ri < 4090`.
On `$` the gathered name is skipped and its value copied while `ri < 4090`.
Every other character is copied.  `acc` holds the output in reverse.  Each
iteration consumes at least one input character, so fuel `length + 1`
suffices; the fuel keeps the recursion structural. -/
def expandLoop (vars env : List (List Char × List Char)) :
    Nat → List Char → Nat → List Char → List Char
  | 0, _, _, acc => acc.reverse
  | _ + 1, [], _, acc => acc.reverse
  | fuel + 1, c :: rest, ri, acc =>
    if 4090 ≤ ri then acc.reverse
    else if c = '$' then
      expandLoop vars env fuel (rest.drop (expName rest).length)
        (ri + min (expVal vars env rest).length (4090 - ri))
        (((expVal vars env rest).take (4090 - ri)).reverse ++ acc)
    else
      expandLoop vars env fuel rest (ri + 1) (c :: acc)

/-- `expand_env_vars` (`mysh.c:200-233`): `$VAR` expansion of one token. -/
def expandEnvVars (vars env : List (List Char × List Char)) (s : List Char) :
    List Char :=
  expandLoop vars env (s.length + 1) s 0 []

/-- Unquoted-token scanner of `tokenize` (`mysh.c:763-766`): accumulate until
whitespace or end of input; `\x` inserts `x` verbatim.  `buf` is the token in
reverse, capped at 4095 characters; when the cap is reached and the current
character cannot be consumed the C loop stops advancing (`none` here; when
only the backslash of an escape fits, the C loop drops the backslash and
continues, which is modelled directly).  Every step consumes input, so fuel
`length + 1` suffices; the fuel keeps the recursion structural. -/
def scanUnquoted : Nat → List Char → List Char → Option (List Char × List Char)
  | 0, _, _ => none
  | _ + 1, [], buf => some (buf.reverse, [])
  | fuel + 1, c :: rest, buf =>
    if cIsSpace c then some (buf.reverse, c :: rest)
    else
      match rest with
      | d :: rest2 =>
        if c = bslash then
          if buf.length < 4095 then scanUnquoted fuel rest2 (d :: buf)
          else scanUnquoted fuel rest buf
        else if buf.length < 4095 then scanUnquoted fuel rest (c :: buf)
        else none
      | [] =>
        if buf.length < 4095 then some ((c :: buf).reverse, []) else none

/-- Quoted-token scanner of `tokenize` (`mysh.c:751-761`): accumulate until
the closing quote `q`; inside double quotes `\x` inserts `x` verbatim.  An
unterminated quote yields the content scanned so far (the C loop exits at the
NUL).  Buffer cap as in `scanUnquoted`. -/
def scanQuoted (q : Char) : Nat → List Char → List Char → Option (List Char × List Char)
  | 0, _, _ => none
  | _ + 1, [], buf => some (buf.reverse, [])
  | fuel + 1, c :: rest, buf =>
    if c = q then some (buf.reverse, rest)
    else
      match rest with
      | d :: rest2 =>
        if c = bslash ∧ q = dquote then
          if buf.length < 4095 then scanQuoted q fuel rest2 (d :: buf)
          else scanQuoted q fuel rest buf
        else if buf.length < 4095 then scanQuoted q fuel rest (c :: buf)
        else none
      | [] =>
        if buf.length < 4095 then some ((c :: buf).reverse, []) else none

/-- Main loop of `tokenize` (`mysh.c:743-777`).  Per iteration: skip
whitespace, stop at end of input, scan one quoted or unquoted token, run
`expand_env_vars` over it, append it, and stop once the token count `ti`
reaches `MAX_TOKENS - 1 = 255` (the check `ti >= MAX_TOKENS-1` runs after the
increment).  `acc` holds the tokens in reverse.  Each iteration consumes at
least one character, so fuel `length + 1` suffices. -/
def tokenizeFuel (vars env : List (List Char × List Char)) :
    Nat → List Char → Nat → List (List Char) → Option (List (List Char))
  | 0, _, _, _ => none
  | fuel + 1, p, ti, acc =>
    match p.dropWhile cIsSpace with
    | [] => some acc.reverse
    | c :: rest =>
      match (if c = dquote ∨ c = squote then scanQuoted c (rest.length + 1) rest []
             else scanUnquoted (rest.length + 2) (c :: rest) []) with
      | none => none
      | some (tok, rest2) =>
        if 255 ≤ ti + 1 then some (expandEnvVars vars env tok :: acc).reverse
        else tokenizeFuel vars env fuel rest2 (ti + 1)
          (expandEnvVars vars env tok :: acc)

/-- `tokenize` (`mysh.c:743-777`): split one raw line into expanded tokens.
`none` models the infinite loop the C code enters on an over-long token. -/
def tokenize (vars env : List (List Char × List Char)) (line : List Char) :
    Option (List (List Char)) :=
  tokenizeFuel vars env (line.length + 1) line 0 []

/-- One parsed command (`cmd_t`, `mysh.c:725-731`): the argv words, optional
input and output redirection paths, and the append flag.  In the C struct
`argv` is a 128-slot array with `argc` words and a NUL terminator; the list
holds exactly those `argc` words. -/
structure cmd_t where
  argv : List (List Char)
  infile : Option (List Char)
  outfile : Option (List Char)
  append : Bool
deriving DecidableEq, Repr

/-- A parsed pipeline (`pipeline_t`, `mysh.c:733-737`).  In C `cmds` is a
fixed 16-element array indexed by `ncmds`; the list records every write
`pipe.cmds[pipe.ncmds++] = cur` in order, in-bounds or not. -/
structure pipeline_t where
  cmds : List cmd_t
  background : Bool
deriving DecidableEq, Repr

/-- The freshly reset accumulator command of `parse_tokens`. -/
def emptyCmd : cmd_t := ⟨[], none, none, false⟩

/-- End of the token stream (`mysh.c:808-811`): the accumulated command is
emitted only when it has arguments or a redirection. -/
def finishParse (cur : cmd_t) (rev : List cmd_t) (bg : Bool) : pipeline_t :=
  if cur.argv ≠ [] ∨ cur.infile ≠ none ∨ cur.outfile ≠ none then
    ⟨(cur :: rev).reverse, bg⟩
  else ⟨rev.reverse, bg⟩

/-- Token loop of `parse_tokens` (`mysh.c:781-813`).  `|` closes the current
command unconditionally (even when empty); `<`, `>`, `>>` consume the next
token as a path (a trailing redirection with no path is skipped); `&` sets
the background flag wherever it appears; any other token is appended to the
argv if fewer than `MAX_ARGS - 1 = 127` words are present.  `rev` holds the
emitted commands in reverse. -/
def parseGo : List (List Char) → cmd_t → List cmd_t → Bool → pipeline_t
  | [], cur, rev, bg => finishParse cur rev bg
  | t :: rest, cur, rev, bg =>
    if t = "|".data then parseGo rest emptyCmd (cur :: rev) bg
    else if t = "<".data then
      match rest with
      | x :: rest2 => parseGo rest2 { cur with infile := some x } rev bg
      | [] => finishParse cur rev bg
    else if t = ">".data then
      match rest with
      | x :: rest2 =>
        parseGo rest2 { cur with outfile := some x, append := false } rev bg
      | [] => finishParse cur rev bg
    else if t = ">>".data then
      match rest with
      | x :: rest2 =>
        parseGo rest2 { cur with outfile := some x, append := true } rev bg
      | [] => finishParse cur rev bg
    else if t = "&".data then parseGo rest cur rev true
    else
      parseGo rest
        (if cur.argv.length < 127 then { cur with argv := cur.argv ++ [t] }
         else cur) rev bg

/-- `parse_tokens` (`mysh.c:781-813`): fold the token list into a pipeline. -/
def parseTokens (toks : List (List Char)) : pipeline_t :=
  parseGo toks emptyCmd [] false

/-- Number of `|` tokens in a token list. -/
def pipeCount : List (List Char) → Nat
  | [] => 0
  | t :: rest => (if t = "|".data then 1 else 0) + pipeCount rest

/-- The built-in command names recognized by `is_builtin` (`mysh.c:1131-1138`). -/
def builtinNames : List (List Char) :=
  ["cd".data, "exit".data, "mkdir".data, "touch".data, "clear".data,
   "help".data, "history".data, "histsearch".data, "jobs".data, "fg".data,
   "bg".data, "alias".data, "unalias".data, "set".data, "unset".data,
   "vars".data, "aliases".data]

/-- `is_builtin` (`mysh.c:1131-1138`). -/
def isBuiltin (s : List Char) : Bool :=
  builtinNames.any (fun b => decide (b = s))

/-- Space-separated join: how `execute_pipeline` rebuilds a command line from
an argv (`mysh.c:1218-1222`, separator `" "` only between words), and how the
tokenizer-facing words of this development are glued together. -/
def joinSpace : List (List Char) → List Char
  | [] => []
  | [w] => w
  | w :: ws => w ++ ' ' :: joinSpace ws

/-- First `strtok(copy, " \t")` token of `expand_aliases` (`mysh.c:460`):
skip leading spaces/tabs, take until the next space/tab; `none` when the
input holds only delimiters. -/
def strtokFirst (input : List Char) : Option (List Char) :=
  let t := input.dropWhile (fun c => decide (c = ' ' ∨ c = tabCh))
  let w := t.takeWhile (fun c => decide (¬(c = ' ' ∨ c = tabCh)))
  if w = [] then none else some w

/-- `expand_aliases` (`mysh.c:455-486`): if the first word of the input is an
alias name, replace it by the alias value and append the remainder (the text
after the first word's length, with spaces/tabs skipped) behind a single
space; otherwise return the input unchanged.  The 4096-byte `expanded`
buffer truncates the result to 4095 characters.  Note the C remainder is
computed from `input + strlen(first_word)`, i.e. from the word's length, not
its position. -/
def expandAliases (al : List (List Char × List Char)) (input : List Char) :
    List Char :=
  if input = [] then input
  else
    match strtokFirst input with
    | none => input
    | some w =>
      match lookupVar al w with
      | none => input
      | some v =>
        let rest :=
          (input.drop w.length).dropWhile (fun c => decide (c = ' ' ∨ c = tabCh))
        (v ++ (if rest = [] then [] else ' ' :: rest)).take 4095

/-- Per-command alias step of `execute_pipeline` (`mysh.c:1216-1243`): for a
command with arguments, join its argv with single spaces, run
`expand_aliases`, and when the text changed re-`tokenize` it and install the
first `MAX_ARGS - 1 = 127` resulting tokens as the new argv.  Commands with
an empty argv are left alone. -/
def aliasCmd (al vars env : List (List Char × List Char)) (c : cmd_t) :
    Option cmd_t :=
  if c.argv = [] then some c
  else
    let orig := (joinSpace c.argv).take 4095
    let expanded := expandAliases al orig
    if expanded = orig then some c
    else
      match tokenize vars env expanded with
      | none => none
      | some ts => some { c with argv := ts.take 127 }

/-- The alias loop of `execute_pipeline` applied to every command of the
pipeline (`mysh.c:1216-1243`). -/
def execAliasPhase (al vars env : List (List Char × List Char))
    (pl : pipeline_t) : Option pipeline_t :=
  (pl.cmds.mapM (aliasCmd al vars env)).map (fun cs => { pl with cmds := cs })

/-- The pipeline a plain input line is executed as, following `main`
(`mysh.c:1449-1454`): tokenize the raw line (no alias expansion yet), skip
empty token lists, parse, then apply the executor's per-command alias phase.
History (`!n`) and preview (`?`) lines are outside this model. -/
def shellRoute (al vars env : List (List Char × List Char)) (line : List Char) :
    Option pipeline_t :=
  match tokenize vars env line with
  | none => none
  | some toks =>
    if toks = [] then none else execAliasPhase al vars env (parseTokens toks)

/-- Route asserted by the specification for claim C3, modelled from its
words: alias-expand the first word of the raw line, then tokenize, then
parse.  Kept for comparison with `shellRoute`; it is not what `main` does. -/
def claimRouteAliasFirst (al vars env : List (List Char × List Char))
    (line : List Char) : Option pipeline_t :=
  (tokenize vars env (expandAliases al line)).map parseTokens

/-- One `waitpid` status, as inspected by the foreground wait loop of
`execute_pipeline` (`mysh.c:1311-1327`). -/
inductive WStatus where
  | exited (code : Int)
  | signaled (sig : Int)
  | stopped (sig : Int)
deriving DecidableEq, Repr

/-- Early-return scan of the fork loop of `execute_pipeline`
(`mysh.c:1253-1299`): commands with an empty argv are skipped
(`if (c->argc == 0) continue`); when the whole pipeline is a single
foreground built-in command without redirection, the built-in runs in the
shell process and its return value is returned (`mysh.c:1258-1260`).  In
every other case the loop forks children and falls through (`none`). -/
def execLoop (pl : pipeline_t) (br : cmd_t → Int) : List cmd_t → Option Int
  | [] => none
  | c :: rest =>
    if c.argv = [] then execLoop pl br rest
    else
      if pl.cmds.length = 1 ∧ isBuiltin (c.argv.headD []) = true ∧
          pl.background = false ∧ c.infile = none ∧ c.outfile = none then
        some (br c)
      else none

/-- Return value of the foreground wait branch of `execute_pipeline`
(`mysh.c:1307-1331`): the statuses captured by `waitpid` are used only for
the STOPPED-job bookkeeping, never for the returned value; after the loop
the function returns the literal `0` (`mysh.c:1333`). -/
def fgBranchStatus (events : List WStatus) : Int := 0

/-- Return value of `execute_pipeline` (`mysh.c:1245-1334`), given the
result `br` each built-in would return and the wait statuses `events` the
children would produce.  Syscall failures (`pipe`/`fork`, which return 1)
are outside the model. -/
def executeStatus (pl : pipeline_t) (br : cmd_t → Int)
    (events : List WStatus) : Int :=
  match execLoop pl br pl.cmds with
  | some s => s
  | none => if pl.background then 0 else fgBranchStatus events

/-- The single-builtin fast-path condition of `execute_pipeline`
(`mysh.c:1258`), as a stand-alone predicate: exactly one command, with
arguments, whose head is a built-in, foreground, and no redirection. -/
def fastPath (pl : pipeline_t) : Option cmd_t :=
  match pl.cmds with
  | [c] =>
    if c.argv ≠ [] ∧ isBuiltin (c.argv.headD []) = true ∧
        pl.background = false ∧ c.infile = none ∧ c.outfile = none then
      some c
    else none
  | _ => none

/-- The commands the fork loop actually forks: those with a non-empty argv
(`mysh.c:1255`, `if (c->argc == 0) continue`). -/
def launched (pl : pipeline_t) : List cmd_t :=
  pl.cmds.filter (fun c => decide (c.argv ≠ []))

/-- Job states (`job_state_t`, `mysh.c:60`). -/
inductive JState where
  | running
  | stopped
  | done
deriving DecidableEq, Repr

/-- One job-table entry (`job_t`, `mysh.c:62-67`). -/
structure JobEnt where
  id : Nat
  pgid : Int
  cmdline : List Char
  state : JState
deriving DecidableEq, Repr

/-- The job table with its id counter (`jobs`, `jobs_count`, `next_job_id`,
`mysh.c:70-72`). -/
structure JobsSt where
  jobs : List JobEnt
  next : Nat
deriving DecidableEq, Repr

/-- `add_job` (`mysh.c:589-596`): when the table already holds
`MAX_JOBS = 128` entries the job is silently dropped and no id is issued;
otherwise the entry is appended with id `next_job_id` and the counter is
incremented.  The second component reports the id issued, if any. -/
def addJob (st : JobsSt) (pgid : Int) (cmd : List Char) (s : JState) :
    JobsSt × Option Nat :=
  if 128 ≤ st.jobs.length then (st, none)
  else (⟨st.jobs ++ [⟨st.next, pgid, cmd, s⟩], st.next + 1⟩, some st.next)

/-- `remove_done_jobs` (`mysh.c:608-619`): compact the table, keeping the
non-DONE entries in order. -/
def removeDoneJobs (st : JobsSt) : JobsSt :=
  ⟨st.jobs.filter (fun j => decide (¬ j.state = JState.done)), st.next⟩

/-- Update the first entry satisfying `p` (the C searches `find_job_by_id`,
`find_job_by_pgid` and the reaper's scan all stop at the first match). -/
def updFirst (p : JobEnt → Bool) (f : JobEnt → JobEnt) :
    List JobEnt → List JobEnt
  | [] => []
  | j :: t => if p j then f j :: t else j :: updFirst p f t

/-- The job-table operations a session performs: `add` from the executor's
background/STOPPED paths (`mysh.c:1304`, `mysh.c:1320`), `removeDone` at the
top of the interactive loop and from `jobs` (`mysh.c:1390`, `mysh.c:978`),
`reapState` from the `SIGCHLD` handler (`mysh.c:685-702`, first entry with
positive matching pgid), and `ctlState` from `fg`/`bg`
(`mysh.c:993`, `mysh.c:1015`, first entry with the given id). -/
inductive JobOp where
  | add (pgid : Int) (cmd : List Char) (s : JState)
  | removeDone
  | reapState (pgid : Int) (s : JState)
  | ctlState (id : Nat) (s : JState)

/-- Run a session's job-table operations from a state, also returning the
job ids issued, in order. -/
def runJobOps : JobsSt → List JobOp → JobsSt × List Nat
  | st, [] => (st, [])
  | st, JobOp.add pg cmd s :: ops =>
    let r := addJob st pg cmd s
    let rec2 := runJobOps r.1 ops
    (rec2.1, r.2.toList ++ rec2.2)
  | st, JobOp.removeDone :: ops => runJobOps (removeDoneJobs st) ops
  | st, JobOp.reapState pg s :: ops =>
    runJobOps
      ⟨updFirst (fun j => decide (0 < j.pgid ∧ j.pgid = pg))
        (fun j => { j with state := s }) st.jobs, st.next⟩ ops
  | st, JobOp.ctlState id s :: ops =>
    runJobOps
      ⟨updFirst (fun j => decide (j.id = id)) (fun j => { j with state := s })
        st.jobs, st.next⟩ ops

/-- The job table at shell start: empty, `next_job_id = 1` (`mysh.c:71-72`). -/
def initJobs : JobsSt := ⟨[], 1⟩

/-- The job ids a session issues, in chronological order. -/
def issuedIds (ops : List JobOp) : List Nat :=
  (runJobOps initJobs ops).2

/-- Replace the value of the first entry named `n` (the find-and-replace
loop of `set_shell_var`, `mysh.c:491-497`). -/
def replFirstVar (n v : List Char) :
    List (List Char × List Char) → List (List Char × List Char)
  | [] => []
  | (a, b) :: t => if a = n then (a, v) :: t else (a, b) :: replFirstVar n v t

/-- `set_shell_var` (`mysh.c:490-504`): replace the first entry with the
given name; otherwise append a new entry only while the table holds fewer
than `MAX_VARS = 100` variables — a full table silently drops the insert. -/
def setShellVar (vars : List (List Char × List Char)) (n v : List Char) :
    List (List Char × List Char) :=
  if vars.any (fun e => decide (e.1 = n)) then replFirstVar n v vars
  else if vars.length < 100 then vars ++ [(n, v)] else vars

/-- `builtin_set` (`mysh.c:1074-1083`): with fewer than two arguments print
usage and return 1; otherwise store `argv[1] ↦ argv[2]` in the
shell-variable table and return 0.  The process environment is threaded
through unchanged — the C function never calls `setenv`.  Result:
`(status, shell variables, process environment)`. -/
def builtinSet (argv : List (List Char))
    (vars env : List (List Char × List Char)) :
    Int × List (List Char × List Char) × List (List Char × List Char) :=
  match argv with
  | _ :: n :: v :: _ => (0, setShellVar vars n v, env)
  | _ => (1, vars, env)

/-- Characters that pass through the whole tokenizer untouched: not
whitespace, not a quote, not a backslash, not `$`. -/
def simpleChar (c : Char) : Bool :=
  decide (cIsSpace c = false ∧ c ≠ dquote ∧ c ≠ squote ∧ c ≠ bslash ∧ c ≠ '$')

/-- A word the tokenizer reproduces verbatim: non-empty, made of
`simpleChar`s, and short enough for every buffer involved. -/
def simpleWordB (w : List Char) : Bool :=
  decide (w ≠ []) && w.all simpleChar && decide (w.length ≤ 4090)

theorem dropWhile_all_true {p : Char → Bool} :
    ∀ {l : List Char}, (∀ c ∈ l, p c = true) → l.dropWhile p = [] := by
  intro l h
  induction l with
  | nil => rfl
  | cons c t ih =>
    simp only [List.dropWhile, h c (by simp)]
    exact ih (fun d hd => h d (by simp [hd]))

theorem dropWhile_append_true {p : Char → Bool} :
    ∀ (sp x : List Char), (∀ c ∈ sp, p c = true) →
      (sp ++ x).dropWhile p = x.dropWhile p := by
  intro sp
  induction sp with
  | nil => intro x _; rfl
  | cons c t ih =>
    intro x h
    simp only [List.cons_append, List.dropWhile, h c (by simp)]
    exact ih x (fun d hd => h d (by simp [hd]))

theorem takeWhile_append_stop {p : Char → Bool} :
    ∀ (w : List Char) (s : Char) (x : List Char), (∀ c ∈ w, p c = true) →
      p s = false → (w ++ s :: x).takeWhile p = w := by
  intro w
  induction w with
  | nil => intro s x _ hs; simp [List.takeWhile, hs]
  | cons c t ih =>
    intro s x h hs
    simp only [List.cons_append, List.takeWhile, h c (by simp), List.append_eq]
    rw [ih s x (fun d hd => h d (by simp [hd])) hs]

theorem takeWhile_all_true {p : Char → Bool} :
    ∀ (w : List Char), (∀ c ∈ w, p c = true) → w.takeWhile p = w := by
  intro w
  induction w with
  | nil => intro _; rfl
  | cons c t ih =>
    intro h
    simp only [List.takeWhile, h c (by simp)]
    rw [ih (fun d hd => h d (by simp [hd]))]

theorem take_of_le {α : Type} : ∀ (l : List α) (n : Nat), l.length ≤ n →
    l.take n = l := by
  intro l
  induction l with
  | nil => intro n _; simp
  | cons a t ih =>
    intro n h
    match n with
    | m + 1 =>
      simp only [List.take]
      rw [ih m (by simpa using h)]

theorem expandLoop_nodollar (vars env : List (List Char × List Char)) :
    ∀ (s : List Char) (fuel ri : Nat) (acc : List Char), s.length < fuel →
      (∀ c ∈ s, c ≠ '$') → ri + s.length ≤ 4090 →
      expandLoop vars env fuel s ri acc = acc.reverse ++ s := by
  intro s
  induction s with
  | nil =>
    intro fuel ri acc hf _ _
    match fuel with
    | f + 1 =>
      rw [expandLoop]
      simp
  | cons c t ih =>
    intro fuel ri acc hf h hlen
    match fuel with
    | f + 1 =>
      have hri : ¬ 4090 ≤ ri := by simp at hlen; omega
      have hc : ¬ c = '$' := h c (by simp)
      rw [expandLoop]
      simp only [hri, if_false, hc]
      rw [ih f (ri + 1) (c :: acc) (by simp at hf ⊢; omega)
        (fun d hd => h d (by simp [hd])) (by simp at hlen ⊢; omega)]
      simp

theorem expand_nodollar (vars env : List (List Char × List Char))
    (s : List Char) (h : ∀ c ∈ s, c ≠ '$') (hlen : s.length ≤ 4090) :
    expandEnvVars vars env s = s := by
  rw [expandEnvVars,
    expandLoop_nodollar vars env s (s.length + 1) 0 [] (by omega) h (by omega)]
  rfl

theorem scanUnquoted_word :
    ∀ (w : List Char) (fuel : Nat) (buf rest : List Char),
      (w ++ rest).length < fuel →
      (∀ c ∈ w, cIsSpace c = false ∧ c ≠ bslash) →
      buf.length + w.length ≤ 4095 →
      (∀ r, rest.head? = some r → cIsSpace r = true) →
      scanUnquoted fuel (w ++ rest) buf = some (buf.reverse ++ w, rest) := by
  intro w
  induction w with
  | nil =>
    intro fuel buf rest hf _ _ hrest
    match fuel with
    | f + 1 =>
      cases rest with
      | nil =>
        rw [List.nil_append, scanUnquoted.eq_def]
        simp
      | cons r rs =>
        have hr : cIsSpace r = true := hrest r rfl
        rw [List.nil_append, scanUnquoted.eq_def]
        simp [hr]
  | cons c t ih =>
    intro fuel buf rest hf h hlen hrest
    match fuel with
    | f + 1 =>
      have hc : cIsSpace c = false := (h c (by simp)).1
      have hcb : ¬ c = bslash := (h c (by simp)).2
      have hroom : buf.length < 4095 := by simp at hlen; omega
      cases h2 : t ++ rest with
      | nil =>
        have ht : t = [] := by
          cases t with | nil => rfl | cons a b => simp at h2
        have hr : rest = [] := by subst ht; simpa using h2
        subst ht
        subst hr
        rw [scanUnquoted.eq_def]
        simp [hc, hroom]
      | cons d rest2 =>
        have step : scanUnquoted (f + 1) ((c :: t) ++ rest) buf =
            scanUnquoted f (t ++ rest) (c :: buf) := by
          rw [List.cons_append, h2, scanUnquoted.eq_def]
          simp [hc, hcb, hroom, h2]
        rw [step, ih f (c :: buf) rest (by simp at hf ⊢; omega)
          (fun d hd => h d (by simp [hd]))
          (by simp at hlen ⊢; omega) hrest]
        simp

theorem scanQuoted_word (q : Char) :
    ∀ (x : List Char) (fuel : Nat) (buf rest : List Char),
      (x ++ q :: rest).length < fuel →
      (∀ c ∈ x, c ≠ q ∧ c ≠ bslash) →
      buf.length + x.length ≤ 4095 →
      scanQuoted q fuel (x ++ q :: rest) buf = some (buf.reverse ++ x, rest) := by
  intro x
  induction x with
  | nil =>
    intro fuel buf rest hf _ _
    match fuel with
    | f + 1 =>
      rw [List.nil_append, scanQuoted.eq_def]
      simp
  | cons c t ih =>
    intro fuel buf rest hf h hlen
    match fuel with
    | f + 1 =>
      have hcq : ¬ c = q := (h c (by simp)).1
      have hcb : ¬ c = bslash := (h c (by simp)).2
      have hroom : buf.length < 4095 := by simp at hlen; omega
      cases h2 : t ++ q :: rest with
      | nil => simp at h2
      | cons d rest2 =>
        have hand : ¬ (c = bslash ∧ q = dquote) := fun ha => hcb ha.1
        have step : scanQuoted q (f + 1) ((c :: t) ++ q :: rest) buf =
            scanQuoted q f (t ++ q :: rest) (c :: buf) := by
          rw [List.cons_append, h2, scanQuoted.eq_def]
          simp [hcq, hand, hroom]
        rw [step, ih f (c :: buf) rest (by simp at hf ⊢; omega)
          (fun d hd => h d (by simp [hd])) (by simp at hlen ⊢; omega)]
        simp

theorem simpleChar_spec (c : Char) (h : simpleChar c = true) :
    cIsSpace c = false ∧ c ≠ dquote ∧ c ≠ squote ∧ c ≠ bslash ∧ c ≠ '$' := by
  simpa [simpleChar] using h

theorem simpleWordB_spec (w : List Char) (h : simpleWordB w = true) :
    w ≠ [] ∧ (∀ c ∈ w, simpleChar c = true) ∧ w.length ≤ 4090 := by
  simp only [simpleWordB, Bool.and_eq_true, decide_eq_true_eq,
    List.all_eq_true] at h
  exact ⟨h.1.1, h.1.2, h.2⟩

theorem joinSpace_cons (w : List Char) (ws : List (List Char)) :
    joinSpace (w :: ws) = w ++ (if ws = [] then [] else ' ' :: joinSpace ws) := by
  cases ws with
  | nil => simp [joinSpace]
  | cons a t => simp [joinSpace]

theorem expand_simple (vars env : List (List Char × List Char))
    (w : List Char) (hw : ∀ c ∈ w, simpleChar c = true)
    (hlen : w.length ≤ 4090) : expandEnvVars vars env w = w :=
  expand_nodollar vars env w
    (fun c hc => (simpleChar_spec c (hw c hc)).2.2.2.2) hlen

theorem tokenizeFuel_join (vars env : List (List Char × List Char)) :
    ∀ (ws : List (List Char)) (sp : List Char) (fuel ti : Nat)
      (acc : List (List Char)),
      (∀ c ∈ sp, cIsSpace c = true) →
      (∀ w ∈ ws, simpleWordB w = true) →
      ti + ws.length ≤ 254 →
      sp.length + (joinSpace ws).length + 1 ≤ fuel →
      tokenizeFuel vars env fuel (sp ++ joinSpace ws) ti acc =
        some (acc.reverse ++ ws) := by
  intro ws
  induction ws with
  | nil =>
    intro sp fuel ti acc hsp _ _ hfuel
    match fuel with
    | f + 1 =>
      rw [tokenizeFuel]
      simp [joinSpace, dropWhile_all_true hsp]
  | cons w ws2 ih =>
    intro sp fuel ti acc hsp hws hcap hfuel
    obtain ⟨hwne, hwch, hwlen⟩ := simpleWordB_spec w (hws w (by simp))
    match hw : w with
    | wc :: w' =>
    obtain ⟨hwc1, hwc2, hwc3, hwc4, _⟩ := simpleChar_spec wc (hwch wc (by simp))
    have hjlen := joinSpace_cons w ws2
    rw [hw] at hjlen
    match fuel with
    | f + 1 =>
    have hfuel2 : sp.length + (joinSpace ((wc :: w') :: ws2)).length + 1 ≤ f + 1 := by
      simpa [hw] using hfuel
    rw [hjlen] at hfuel2
    by_cases hws2 : ws2 = []
    · subst hws2
      simp only [if_true] at hjlen hfuel2
      rw [hjlen, tokenizeFuel]
      have hdrop : ((sp ++ ((wc :: w') ++ [])).dropWhile cIsSpace)
          = wc :: (w' ++ []) := by
        rw [dropWhile_append_true sp _ hsp, List.cons_append, List.dropWhile]
        simp [hwc1]
      rw [hdrop]
      have hq : ¬ (wc = dquote ∨ wc = squote) := by
        intro hor; cases hor with
        | inl h => exact hwc2 h
        | inr h => exact hwc3 h
      simp only [hq, if_false]
      have hscan := scanUnquoted_word (wc :: w')
        ((w' ++ ([] : List Char)).length + 2) [] []
        (by simp only [List.length_append, List.length_cons,
          List.length_nil]; omega)
        (fun c hc => ⟨(simpleChar_spec c (hwch c hc)).1,
          (simpleChar_spec c (hwch c hc)).2.2.2.1⟩)
        (by simp at hwlen ⊢; omega) (by intro r hr; simp at hr)
      simp only [List.cons_append] at hscan
      rw [hscan]
      simp only [List.reverse_nil, List.nil_append]
      rw [expand_simple vars env (wc :: w') hwch hwlen]
      have hcap2 : ¬ 255 ≤ ti + 1 := by simp at hcap; omega
      simp only [hcap2, if_false]
      have := ih [] f (ti + 1) ((wc :: w') :: acc) (by intro c hc; simp at hc)
        (by intro u hu; simp at hu) (by simp at hcap ⊢; omega)
        (by simp [joinSpace] at hfuel2 ⊢; omega)
      simp only [joinSpace, List.append_nil, List.nil_append] at this
      rw [this]
      simp
    · simp only [hws2, if_false] at hjlen hfuel2
      rw [hjlen, tokenizeFuel]
      have hdrop : ((sp ++ ((wc :: w') ++ ' ' :: joinSpace ws2)).dropWhile cIsSpace)
          = wc :: (w' ++ ' ' :: joinSpace ws2) := by
        rw [dropWhile_append_true sp _ hsp, List.cons_append, List.dropWhile]
        simp [hwc1]
      rw [hdrop]
      have hq : ¬ (wc = dquote ∨ wc = squote) := by
        intro hor; cases hor with
        | inl h => exact hwc2 h
        | inr h => exact hwc3 h
      simp only [hq, if_false]
      have hscan := scanUnquoted_word (wc :: w')
        ((w' ++ ' ' :: joinSpace ws2).length + 2) [] (' ' :: joinSpace ws2)
        (by simp only [List.length_append, List.length_cons]; omega)
        (fun c hc => ⟨(simpleChar_spec c (hwch c hc)).1,
          (simpleChar_spec c (hwch c hc)).2.2.2.1⟩)
        (by simp at hwlen ⊢; omega)
        (by intro r hr; simp at hr; rw [← hr]; decide)
      simp only [List.cons_append] at hscan
      rw [hscan]
      simp only [List.reverse_nil, List.nil_append]
      rw [expand_simple vars env (wc :: w') hwch hwlen]
      have hcap2 : ¬ 255 ≤ ti + 1 := by simp at hcap; omega
      simp only [hcap2, if_false]
      have := ih [' '] f (ti + 1) ((wc :: w') :: acc)
        (by intro c hc; simp at hc; rw [hc]; decide)
        (fun u hu => hws u (by simp [hu])) (by simp at hcap ⊢; omega)
        (by simp at hfuel2 ⊢; omega)
      simp only [List.singleton_append] at this
      rw [this]
      simp

theorem tokenize_join (vars env : List (List Char × List Char))
    (ws : List (List Char)) (hws : ∀ w ∈ ws, simpleWordB w = true)
    (hcap : ws.length ≤ 254) :
    tokenize vars env (joinSpace ws) = some ws := by
  rw [tokenize]
  have := tokenizeFuel_join vars env ws [] ((joinSpace ws).length + 1) 0 []
    (by intro c hc; simp at hc) hws (by omega) (by simp)
  simpa using this

theorem tokenize_quoted (vars env : List (List Char × List Char))
    (x : List Char) (hx : ∀ c ∈ x, c ≠ dquote ∧ c ≠ '$' ∧ c ≠ bslash)
    (hlen : x.length ≤ 4090) :
    tokenize vars env (dquote :: (x ++ [dquote])) = some [x] := by
  have hx2 : ∀ c ∈ x, c ≠ dquote ∧ c ≠ bslash :=
    fun c hc => ⟨(hx c hc).1, (hx c hc).2.2⟩
  have hlenb : ([] : List Char).length + x.length ≤ 4095 := by simp; omega
  have hscan := scanQuoted_word dquote x ((x ++ [dquote]).length + 1) [] []
    (by omega) hx2 hlenb
  simp only [List.reverse_nil, List.nil_append] at hscan
  have hexp := expand_nodollar vars env x (fun c hc => (hx c hc).2.1) hlen
  rw [tokenize]
  have e1 : (dquote :: (x ++ [dquote])).length + 1 = (x.length + 2) + 1 := by
    simp
  rw [e1, tokenizeFuel]
  have hdrop : (dquote :: (x ++ [dquote])).dropWhile cIsSpace
      = dquote :: (x ++ [dquote]) := by
    rw [List.dropWhile]
    simp [cIsSpace, dquote]
  simp only [hdrop]
  have hq : (dquote = dquote ∨ dquote = squote) = True := by simp
  simp only [hq, if_true, hscan, hexp]
  have hcap : (255 ≤ 0 + 1) = False := by simp
  simp only [hcap, if_false]
  simp only [true_or, if_true]
  rw [hexp]
  have e2 : x.length + 2 = (x.length + 1) + 1 := rfl
  rw [e2, tokenizeFuel]
  simp [List.dropWhile]

theorem tokenizeFuel_count (vars env : List (List Char × List Char)) :
    ∀ (f : Nat) (p : List Char) (ti : Nat) (acc r : List (List Char)),
      ti ≤ 254 → tokenizeFuel vars env f p ti acc = some r →
      r.length ≤ acc.length + (255 - ti) := by
  intro f
  induction f with
  | zero =>
    intro p ti acc r _ h
    simp [tokenizeFuel] at h
  | succ f ih =>
    intro p ti acc r hti h
    rw [tokenizeFuel] at h
    cases hdrop : p.dropWhile cIsSpace with
    | nil =>
      simp only [hdrop, Option.some.injEq] at h
      rw [← h]
      simp only [List.length_reverse]
      omega
    | cons c rest =>
      simp only [hdrop] at h
      cases hscan : (if c = dquote ∨ c = squote then
          scanQuoted c (rest.length + 1) rest []
          else scanUnquoted (rest.length + 2) (c :: rest) []) with
      | none =>
        simp only [hscan] at h
        exact Option.noConfusion h
      | some pr =>
        obtain ⟨tok, rest2⟩ := pr
        simp only [hscan] at h
        by_cases hcap : 255 ≤ ti + 1
        · rw [if_pos hcap] at h
          simp only [Option.some.injEq] at h
          rw [← h]
          simp only [List.length_reverse, List.length_cons]
          omega
        · rw [if_neg hcap] at h
          have := ih rest2 (ti + 1) (expandEnvVars vars env tok :: acc) r
            (by omega) h
          simp at this ⊢
          omega

theorem tokenize_count_le (vars env : List (List Char × List Char))
    (line : List Char) (r : List (List Char))
    (h : tokenize vars env line = some r) : r.length ≤ 255 := by
  have := tokenizeFuel_count vars env (line.length + 1) line 0 [] r
    (by omega) h
  simpa using this

theorem parseGo_nil (cur : cmd_t) (rev : List cmd_t) (bg : Bool) :
    parseGo [] cur rev bg = finishParse cur rev bg := by
  rw [parseGo.eq_def]

theorem parseGo_pipe (rest : List (List Char)) (cur : cmd_t)
    (rev : List cmd_t) (bg : Bool) :
    parseGo ("|".data :: rest) cur rev bg =
      parseGo rest emptyCmd (cur :: rev) bg := by
  rw [parseGo.eq_def]
  simp

theorem parseGo_lt_cons (x : List Char) (rest2 : List (List Char))
    (cur : cmd_t) (rev : List cmd_t) (bg : Bool) :
    parseGo ("<".data :: x :: rest2) cur rev bg =
      parseGo rest2 { cur with infile := some x } rev bg := by
  have h1 : ("<".data = "|".data) = False := by decide
  rw [parseGo.eq_def]
  simp [h1]

theorem parseGo_lt_nil (cur : cmd_t) (rev : List cmd_t) (bg : Bool) :
    parseGo ["<".data] cur rev bg = finishParse cur rev bg := by
  have h1 : ("<".data = "|".data) = False := by decide
  rw [parseGo.eq_def]
  simp [h1]

theorem parseGo_gt_cons (x : List Char) (rest2 : List (List Char))
    (cur : cmd_t) (rev : List cmd_t) (bg : Bool) :
    parseGo (">".data :: x :: rest2) cur rev bg =
      parseGo rest2 { cur with outfile := some x, append := false } rev bg := by
  have h1 : (">".data = "|".data) = False := by decide
  have h2 : (">".data = "<".data) = False := by decide
  rw [parseGo.eq_def]
  simp [h1, h2]

theorem parseGo_gt_nil (cur : cmd_t) (rev : List cmd_t) (bg : Bool) :
    parseGo [">".data] cur rev bg = finishParse cur rev bg := by
  have h1 : (">".data = "|".data) = False := by decide
  have h2 : (">".data = "<".data) = False := by decide
  rw [parseGo.eq_def]
  simp [h1, h2]

theorem parseGo_append_cons (x : List Char) (rest2 : List (List Char))
    (cur : cmd_t) (rev : List cmd_t) (bg : Bool) :
    parseGo (">>".data :: x :: rest2) cur rev bg =
      parseGo rest2 { cur with outfile := some x, append := true } rev bg := by
  have h1 : (">>".data = "|".data) = False := by decide
  have h2 : (">>".data = "<".data) = False := by decide
  have h3 : (">>".data = ">".data) = False := by decide
  rw [parseGo.eq_def]
  simp [h1, h2, h3]

theorem parseGo_append_nil (cur : cmd_t) (rev : List cmd_t) (bg : Bool) :
    parseGo [">>".data] cur rev bg = finishParse cur rev bg := by
  have h1 : (">>".data = "|".data) = False := by decide
  have h2 : (">>".data = "<".data) = False := by decide
  have h3 : (">>".data = ">".data) = False := by decide
  rw [parseGo.eq_def]
  simp [h1, h2, h3]

theorem parseGo_amp (rest : List (List Char)) (cur : cmd_t)
    (rev : List cmd_t) (bg : Bool) :
    parseGo ("&".data :: rest) cur rev bg = parseGo rest cur rev true := by
  have h1 : ("&".data = "|".data) = False := by decide
  have h2 : ("&".data = "<".data) = False := by decide
  have h3 : ("&".data = ">".data) = False := by decide
  have h4 : ("&".data = ">>".data) = False := by decide
  rw [parseGo.eq_def]
  simp [h1, h2, h3, h4]

theorem parseGo_word (t : List Char) (rest : List (List Char)) (cur : cmd_t)
    (rev : List cmd_t) (bg : Bool) (h1 : t ≠ "|".data) (h2 : t ≠ "<".data)
    (h3 : t ≠ ">".data) (h4 : t ≠ ">>".data) (h5 : t ≠ "&".data) :
    parseGo (t :: rest) cur rev bg =
      parseGo rest
        (if cur.argv.length < 127 then { cur with argv := cur.argv ++ [t] }
         else cur) rev bg := by
  rw [parseGo.eq_def]
  simp [h1, h2, h3, h4, h5]

theorem finishParse_len_le (cur : cmd_t) (rev : List cmd_t) (bg : Bool) :
    (finishParse cur rev bg).cmds.length ≤ rev.length + 1 := by
  rw [finishParse]
  split
  · simp
  · simp

theorem finishParse_len_ge (cur : cmd_t) (rev : List cmd_t) (bg : Bool) :
    rev.length ≤ (finishParse cur rev bg).cmds.length := by
  rw [finishParse]
  split
  · simp
  · simp

theorem pipeCount_cons (t : List Char) (rest : List (List Char)) :
    pipeCount (t :: rest) = (if t = "|".data then 1 else 0) + pipeCount rest :=
  rfl

theorem parseGo_len_le :
    ∀ (N : Nat) (toks : List (List Char)) (cur : cmd_t) (rev : List cmd_t)
      (bg : Bool), toks.length ≤ N →
      (parseGo toks cur rev bg).cmds.length ≤ rev.length + pipeCount toks + 1 := by
  intro N
  induction N with
  | zero =>
    intro toks cur rev bg hN
    have ht : toks = [] := by
      cases toks with | nil => rfl | cons a b => simp at hN
    subst ht
    rw [parseGo_nil]
    simpa [pipeCount] using finishParse_len_le cur rev bg
  | succ N ih =>
    intro toks cur rev bg hN
    cases toks with
    | nil =>
      rw [parseGo_nil]
      simpa [pipeCount] using finishParse_len_le cur rev bg
    | cons t rest =>
      have hrest : rest.length ≤ N := by simp at hN; omega
      rw [pipeCount_cons]
      by_cases h1 : t = "|".data
      · subst h1
        rw [parseGo_pipe, if_pos rfl]
        have h2 := ih rest emptyCmd (cur :: rev) bg hrest
        simp at h2 ⊢
        omega
      · rw [if_neg h1]
        by_cases h2 : t = "<".data
        · subst h2
          cases rest with
          | nil =>
            rw [parseGo_lt_nil]
            have := finishParse_len_le cur rev bg
            simp [pipeCount]
            omega
          | cons x rest2 =>
            rw [parseGo_lt_cons, pipeCount_cons]
            have := ih rest2 { cur with infile := some x } rev bg
              (by simp at hrest ⊢; omega)
            split <;> omega
        · by_cases h3 : t = ">".data
          · subst h3
            cases rest with
            | nil =>
              rw [parseGo_gt_nil]
              have := finishParse_len_le cur rev bg
              simp [pipeCount]
              omega
            | cons x rest2 =>
              rw [parseGo_gt_cons, pipeCount_cons]
              have := ih rest2 { cur with outfile := some x, append := false }
                rev bg (by simp at hrest ⊢; omega)
              split <;> omega
          · by_cases h4 : t = ">>".data
            · subst h4
              cases rest with
              | nil =>
                rw [parseGo_append_nil]
                have := finishParse_len_le cur rev bg
                simp [pipeCount]
                omega
              | cons x rest2 =>
                rw [parseGo_append_cons, pipeCount_cons]
                have := ih rest2 { cur with outfile := some x, append := true }
                  rev bg (by simp at hrest ⊢; omega)
                split <;> omega
            · by_cases h5 : t = "&".data
              · subst h5
                rw [parseGo_amp]
                have := ih rest cur rev true hrest
                omega
              · rw [parseGo_word t rest cur rev bg h1 h2 h3 h4 h5]
                have := ih rest
                  (if cur.argv.length < 127 then
                    { cur with argv := cur.argv ++ [t] } else cur) rev bg hrest
                omega

theorem parseGo_len_ge :
    ∀ (N : Nat) (toks : List (List Char)) (cur : cmd_t) (rev : List cmd_t)
      (bg : Bool), toks.length ≤ N →
      (∀ t ∈ toks, t ≠ "<".data ∧ t ≠ ">".data ∧ t ≠ ">>".data) →
      rev.length + pipeCount toks ≤ (parseGo toks cur rev bg).cmds.length := by
  intro N
  induction N with
  | zero =>
    intro toks cur rev bg hN _
    have ht : toks = [] := by
      cases toks with | nil => rfl | cons a b => simp at hN
    subst ht
    rw [parseGo_nil]
    simpa [pipeCount] using finishParse_len_ge cur rev bg
  | succ N ih =>
    intro toks cur rev bg hN hnr
    cases toks with
    | nil =>
      rw [parseGo_nil]
      simpa [pipeCount] using finishParse_len_ge cur rev bg
    | cons t rest =>
      have hrest : rest.length ≤ N := by simp at hN; omega
      have hnr2 : ∀ u ∈ rest, u ≠ "<".data ∧ u ≠ ">".data ∧ u ≠ ">>".data :=
        fun u hu => hnr u (by simp [hu])
      rw [pipeCount_cons]
      by_cases h1 : t = "|".data
      · subst h1
        rw [parseGo_pipe, if_pos rfl]
        have h2 := ih rest emptyCmd (cur :: rev) bg hrest hnr2
        simp at h2 ⊢
        omega
      · rw [if_neg h1]
        by_cases h5 : t = "&".data
        · subst h5
          rw [parseGo_amp]
          have := ih rest cur rev true hrest hnr2
          omega
        · rw [parseGo_word t rest cur rev bg h1 (hnr t (by simp)).1
            (hnr t (by simp)).2.1 (hnr t (by simp)).2.2 h5]
          have := ih rest
            (if cur.argv.length < 127 then
              { cur with argv := cur.argv ++ [t] } else cur) rev bg hrest hnr2
          omega

/-- Specification-side model of `$`-expansion for claim C4, written from the
amended claim's words: each `$` is consumed together with the maximal
`isVarChar` run after it (capped at 127 characters) as the name; the name's
value (shell variable, else environment, else empty) replaces them; every
other character is kept.  No output-length cap; compare `expandEnvVars`. -/
def expandEnvVarsSpec (vars env : List (List Char × List Char)) :
    List Char → List Char
  | [] => []
  | c :: rest =>
    if c = '$' then
      expVal vars env rest ++
        expandEnvVarsSpec vars env (rest.drop (expName rest).length)
    else c :: expandEnvVarsSpec vars env rest
  termination_by s => s.length
  decreasing_by
    · simp only [List.length_drop, List.length_cons]
      omega
    · simp only [List.length_cons]
      omega

theorem expandLoop_full (vars env : List (List Char × List Char))
    (fuel : Nat) (s : List Char) (ri : Nat) (acc : List Char)
    (hri : 4090 ≤ ri) : expandLoop vars env fuel s ri acc = acc.reverse := by
  match fuel with
  | 0 => rw [expandLoop]
  | f + 1 =>
    cases s with
    | nil => rw [expandLoop]
    | cons c rest =>
      rw [expandLoop.eq_def]
      simp [hri]

theorem expandLoop_dollar (vars env : List (List Char × List Char))
    (f : Nat) (rest : List Char) (ri : Nat) (acc : List Char)
    (hri : ¬ 4090 ≤ ri) :
    expandLoop vars env (f + 1) ('$' :: rest) ri acc =
      expandLoop vars env f (rest.drop (expName rest).length)
        (ri + min (expVal vars env rest).length (4090 - ri))
        (((expVal vars env rest).take (4090 - ri)).reverse ++ acc) := by
  rw [expandLoop.eq_def]
  simp [hri]

theorem expandLoop_plain (vars env : List (List Char × List Char)) (c : Char)
    (f : Nat) (rest : List Char) (ri : Nat) (acc : List Char)
    (hri : ¬ 4090 ≤ ri) (hc : ¬ c = '$') :
    expandLoop vars env (f + 1) (c :: rest) ri acc =
      expandLoop vars env f rest (ri + 1) (c :: acc) := by
  rw [expandLoop.eq_def]
  simp [hri, hc]

theorem expandSpec_dollar (vars env : List (List Char × List Char))
    (rest : List Char) :
    expandEnvVarsSpec vars env ('$' :: rest) =
      expVal vars env rest ++
        expandEnvVarsSpec vars env (rest.drop (expName rest).length) := by
  rw [expandEnvVarsSpec.eq_def]
  simp

theorem expandSpec_plain (vars env : List (List Char × List Char)) (c : Char)
    (rest : List Char) (hc : ¬ c = '$') :
    expandEnvVarsSpec vars env (c :: rest) =
      c :: expandEnvVarsSpec vars env rest := by
  rw [expandEnvVarsSpec.eq_def]
  simp [hc]

theorem expandLoop_spec (vars env : List (List Char × List Char)) :
    ∀ (N : Nat) (s : List Char), s.length ≤ N →
      ∀ (fuel ri : Nat) (acc : List Char), s.length < fuel →
      expandLoop vars env fuel s ri acc =
        acc.reverse ++ (expandEnvVarsSpec vars env s).take (4090 - ri) := by
  intro N
  induction N with
  | zero =>
    intro s hN fuel ri acc hf
    have hs : s = [] := by cases s with | nil => rfl | cons a b => simp at hN
    subst hs
    match fuel with
    | f + 1 =>
      rw [expandLoop, expandEnvVarsSpec]
      simp
  | succ N ih =>
    intro s hN fuel ri acc hf
    cases s with
    | nil =>
      match fuel with
      | f + 1 =>
        rw [expandLoop, expandEnvVarsSpec]
        simp
    | cons c rest =>
      match fuel with
      | f + 1 =>
        by_cases hri : 4090 ≤ ri
        · rw [expandLoop_full vars env (f + 1) _ ri acc hri]
          have h0 : 4090 - ri = 0 := by omega
          rw [h0]
          simp
        · by_cases hc : c = '$'
          · subst hc
            rw [expandLoop_dollar vars env f rest ri acc hri,
              expandSpec_dollar vars env rest]
            have hdl : (rest.drop (expName rest).length).length ≤ N := by
              simp at hN ⊢
              omega
            have hdf : (rest.drop (expName rest).length).length < f := by
              simp at hf ⊢
              omega
            rw [ih _ hdl _ _ _ hdf]
            rw [List.take_append_eq_append_take]
            have harith : 4090 - (ri + min (expVal vars env rest).length
                (4090 - ri)) = 4090 - ri - (expVal vars env rest).length := by
              omega
            rw [harith]
            simp
          · rw [expandLoop_plain vars env c f rest ri acc hri hc,
              expandSpec_plain vars env c rest hc]
            have hdl : rest.length ≤ N := by simp at hN; omega
            have hdf : rest.length < f := by simp at hf; omega
            rw [ih _ hdl _ _ _ hdf]
            have hsucc : 4090 - ri = (4090 - ri - 1) + 1 := by omega
            rw [hsucc, List.take_succ_cons]
            have harith : 4090 - (ri + 1) = 4090 - ri - 1 := by omega
            rw [harith]
            simp

theorem expand_eq_spec_trunc (vars env : List (List Char × List Char))
    (s : List Char) :
    expandEnvVars vars env s = (expandEnvVarsSpec vars env s).take 4090 := by
  rw [expandEnvVars,
    expandLoop_spec vars env s.length s (by omega) (s.length + 1) 0 []
      (by omega)]
  simp

theorem joinSpace_cons_cons (w a : List Char) (t : List (List Char)) :
    joinSpace (w :: a :: t) = w ++ ' ' :: joinSpace (a :: t) := rfl

theorem joinSpace_append (xs ys : List (List Char)) (hx : xs ≠ [])
    (hy : ys ≠ []) :
    joinSpace (xs ++ ys) = joinSpace xs ++ ' ' :: joinSpace ys := by
  induction xs with
  | nil => exact absurd rfl hx
  | cons x xt ih =>
    cases xt with
    | nil =>
      cases ys with
      | nil => exact absurd rfl hy
      | cons y yt => simp [joinSpace_cons_cons, joinSpace]
    | cons a t =>
      have h2 := ih (by simp)
      rw [List.cons_append, List.cons_append, joinSpace_cons_cons]
      rw [show a :: (t ++ ys) = (a :: t) ++ ys from rfl, h2,
        joinSpace_cons_cons]
      simp

theorem joinSpace_ne_nil (xs : List (List Char)) (hx : xs ≠ [])
    (hw : ∀ w ∈ xs, w ≠ []) : joinSpace xs ≠ [] := by
  cases xs with
  | nil => exact absurd rfl hx
  | cons x xt =>
    rw [joinSpace_cons]
    have : x ≠ [] := hw x (by simp)
    cases x with
    | nil => exact absurd rfl this
    | cons c cs => simp

theorem takeWhile_join_head (x : List Char) (A : List Char)
    (hx : ∀ c ∈ x, (c = ' ') = False)
    (hA : A = [] ∨ ∃ r, A = ' ' :: r) :
    (x ++ A).takeWhile (fun c => decide (¬ c = ' ')) = x := by
  have hxall : ∀ c ∈ x, (fun c => decide (¬ c = ' ')) c = true := by
    intro c hc
    simp [hx c hc]
  cases hA with
  | inl h =>
    subst h
    rw [List.append_nil]
    exact takeWhile_all_true x hxall
  | inr h =>
    obtain ⟨r, hr⟩ := h
    subst hr
    exact takeWhile_append_stop x ' ' r hxall (by simp)

theorem joinSpace_inj :
    ∀ (xs ys : List (List Char)),
      (∀ w ∈ xs, w ≠ [] ∧ ∀ c ∈ w, (c = ' ') = False) →
      (∀ w ∈ ys, w ≠ [] ∧ ∀ c ∈ w, (c = ' ') = False) →
      joinSpace xs = joinSpace ys → xs = ys := by
  intro xs
  induction xs with
  | nil =>
    intro ys _ hys h
    cases ys with
    | nil => rfl
    | cons y yt =>
      exact absurd h.symm
        (joinSpace_ne_nil (y :: yt) (by simp) (fun w hw => (hys w hw).1))
  | cons x xt ih =>
    intro ys hxs hys h
    cases ys with
    | nil =>
      exact absurd h
        (joinSpace_ne_nil (x :: xt) (by simp) (fun w hw => (hxs w hw).1))
    | cons y yt =>
      rw [joinSpace_cons, joinSpace_cons] at h
      have hxw := hxs x (by simp)
      have hyw := hys y (by simp)
      have hxtw : ∀ w ∈ xt, w ≠ [] ∧ ∀ c ∈ w, (c = ' ') = False :=
        fun w hw => hxs w (by simp [hw])
      have hytw : ∀ w ∈ yt, w ≠ [] ∧ ∀ c ∈ w, (c = ' ') = False :=
        fun w hw => hys w (by simp [hw])
      have hxA : (if xt = [] then ([] : List Char) else ' ' :: joinSpace xt)
          = [] ∨ ∃ r, (if xt = [] then ([] : List Char)
            else ' ' :: joinSpace xt) = ' ' :: r := by
        by_cases hxt : xt = []
        · left; simp [hxt]
        · right; exact ⟨joinSpace xt, by simp [hxt]⟩
      have hyA : (if yt = [] then ([] : List Char) else ' ' :: joinSpace yt)
          = [] ∨ ∃ r, (if yt = [] then ([] : List Char)
            else ' ' :: joinSpace yt) = ' ' :: r := by
        by_cases hyt : yt = []
        · left; simp [hyt]
        · right; exact ⟨joinSpace yt, by simp [hyt]⟩
      have hxy : x = y := by
        have t1 := takeWhile_join_head x _ hxw.2 hxA
        have t2 := takeWhile_join_head y _ hyw.2 hyA
        rw [← t1, ← t2, h]
      subst hxy
      have htails := congrArg (fun l => l.drop x.length) h
      simp only [List.drop_left] at htails
      by_cases hxt : xt = []
      · by_cases hyt : yt = []
        · rw [hxt, hyt]
        · rw [if_pos hxt, if_neg hyt] at htails
          exact absurd htails.symm (by simp)
      · by_cases hyt : yt = []
        · rw [if_neg hxt, if_pos hyt] at htails
          exact absurd htails (by simp)
        · rw [if_neg hxt, if_neg hyt] at htails
          simp only [List.cons.injEq] at htails
          rw [ih yt hxtw hytw htails.2]

theorem simpleChar_not_sp (c : Char) (h : simpleChar c = true) :
    (c = ' ') = False := by
  have h1 := (simpleChar_spec c h).1
  by_contra hne
  simp only [eq_iff_iff, iff_false, not_not] at hne
  rw [hne] at h1
  exact absurd h1 (by decide)

theorem simpleChar_not_delim (c : Char) (h : simpleChar c = true) :
    (decide (c = ' ' ∨ c = tabCh)) = false := by
  have h1 := (simpleChar_spec c h).1
  simp only [decide_eq_false_iff_not]
  intro hor
  cases hor with
  | inl he => rw [he] at h1; exact absurd h1 (by decide)
  | inr he => rw [he] at h1; exact absurd h1 (by decide)

theorem simpleWord_nonempty_nosp (w : List Char) (h : simpleWordB w = true) :
    w ≠ [] ∧ ∀ c ∈ w, (c = ' ') = False := by
  obtain ⟨h1, h2, _⟩ := simpleWordB_spec w h
  exact ⟨h1, fun c hc => simpleChar_not_sp c (h2 c hc)⟩

theorem dropWhile_delim_join (rest : List (List Char)) (hne : rest ≠ [])
    (hw : ∀ u ∈ rest, simpleWordB u = true) :
    (joinSpace rest).dropWhile (fun c => decide (c = ' ' ∨ c = tabCh)) =
      joinSpace rest := by
  cases rest with
  | nil => exact absurd rfl hne
  | cons r rt =>
    rw [joinSpace_cons]
    obtain ⟨hr1, hr2, _⟩ := simpleWordB_spec r (hw r (by simp))
    cases r with
    | nil => exact absurd rfl hr1
    | cons c cs =>
      rw [List.cons_append, List.dropWhile]
      simp [simpleChar_not_delim c (hr2 c (by simp))]

theorem strtokFirst_join (w tail : List Char)
    (hw : ∀ c ∈ w, simpleChar c = true) (hne : w ≠ [])
    (htail : tail = [] ∨ ∃ r, tail = ' ' :: r) :
    strtokFirst (w ++ tail) = some w := by
  cases w with
  | nil => exact absurd rfl hne
  | cons c cs =>
    rw [strtokFirst]
    have hdrop : ((c :: cs) ++ tail).dropWhile
        (fun c => decide (c = ' ' ∨ c = tabCh)) = (c :: cs) ++ tail := by
      rw [List.cons_append, List.dropWhile]
      simp [simpleChar_not_delim c (hw c (by simp))]
    have hpass : ∀ d ∈ c :: cs,
        (fun c => decide (¬(c = ' ' ∨ c = tabCh))) d = true := by
      intro d hd
      simp only [decide_eq_true_eq]
      have := simpleChar_not_delim d (hw d hd)
      simp only [decide_eq_false_iff_not] at this
      exact this
    have htake : ((c :: cs) ++ tail).takeWhile
        (fun c => decide (¬(c = ' ' ∨ c = tabCh))) = c :: cs := by
      cases htail with
      | inl h =>
        subst h
        rw [List.append_nil]
        exact takeWhile_all_true (c :: cs) hpass
      | inr h =>
        obtain ⟨r, hr⟩ := h
        subst hr
        exact takeWhile_append_stop (c :: cs) ' ' r hpass (by simp)
    simp only [hdrop, htake]
    simp

theorem expandAliases_join (al : List (List Char × List Char))
    (w v : List Char) (rest vs : List (List Char))
    (hlook : lookupVar al w = some v) (hw : simpleWordB w = true)
    (hrest : ∀ u ∈ rest, simpleWordB u = true) (hvne : vs ≠ [])
    (hvs : ∀ u ∈ vs, simpleWordB u = true) (hv : v = joinSpace vs)
    (hlen2 : (joinSpace (vs ++ rest)).length ≤ 4095) :
    expandAliases al (joinSpace (w :: rest)) = joinSpace (vs ++ rest) := by
  obtain ⟨hwne, hwch, _⟩ := simpleWordB_spec w hw
  have hrestne : ∀ u ∈ rest, u ≠ [] :=
    fun u hu => (simpleWordB_spec u (hrest u hu)).1
  have hne2 : joinSpace (w :: rest) ≠ [] :=
    joinSpace_ne_nil _ (by simp)
      (by
        intro u hu
        simp at hu
        cases hu with
        | inl h => rw [h]; exact hwne
        | inr h => exact hrestne u h)
  by_cases hrn : rest = []
  · subst hrn
    have hjw : joinSpace [w] = w := by rw [joinSpace_cons]; simp
    rw [hjw] at hne2 ⊢
    have hstrtok : strtokFirst w = some w := by
      have := strtokFirst_join w [] hwch hwne (Or.inl rfl)
      simpa using this
    rw [expandAliases, if_neg hne2]
    simp only [hstrtok, hlook]
    have hdropall : (w.drop w.length).dropWhile
        (fun c => decide (c = ' ' ∨ c = tabCh)) = [] := by
      simp
    rw [hdropall]
    have hvlen : v.length ≤ 4095 := by
      have hjv : joinSpace (vs ++ []) = v := by rw [List.append_nil, ← hv]
      rw [hjv] at hlen2
      exact hlen2
    have hred : (v ++ (if ([] : List Char) = [] then ([] : List Char)
        else ' ' :: ([] : List Char))).take 4095 = v.take 4095 := by simp
    rw [hred, take_of_le v 4095 hvlen, hv, List.append_nil]
  · have hjc : joinSpace (w :: rest) = w ++ ' ' :: joinSpace rest := by
      rw [joinSpace_cons, if_neg hrn]
    have hstrtok : strtokFirst (joinSpace (w :: rest)) = some w := by
      rw [hjc]
      exact strtokFirst_join w (' ' :: joinSpace rest) hwch hwne
        (Or.inr ⟨joinSpace rest, rfl⟩)
    rw [expandAliases, if_neg hne2]
    simp only [hstrtok, hlook]
    have hdrop1 : (joinSpace (w :: rest)).drop w.length =
        ' ' :: joinSpace rest := by
      rw [hjc, List.drop_left]
    have hdrop2 : ((' ' : Char) :: joinSpace rest).dropWhile
        (fun c => decide (c = ' ' ∨ c = tabCh)) = joinSpace rest := by
      have hstep := dropWhile_append_true (p := fun c => decide (c = ' ' ∨ c = tabCh))
        [' '] (joinSpace rest) (by intro c hc; simp at hc; rw [hc]; decide)
      rw [List.singleton_append] at hstep
      rw [hstep]
      exact dropWhile_delim_join rest hrn hrest
    have hjne : joinSpace rest ≠ [] := joinSpace_ne_nil rest hrn hrestne
    simp only [hdrop1, hdrop2, if_neg hjne]
    have hja : joinSpace (vs ++ rest) = v ++ ' ' :: joinSpace rest := by
      rw [joinSpace_append vs rest hvne hrn, hv]
    rw [← hja, take_of_le _ 4095 hlen2]

theorem aliasCmd_expand (al vars env : List (List Char × List Char))
    (w v : List Char) (rest vs : List (List Char))
    (inf outf : Option (List Char)) (app : Bool)
    (hlook : lookupVar al w = some v) (hw : simpleWordB w = true)
    (hrest : ∀ u ∈ rest, simpleWordB u = true) (hvne : vs ≠ [])
    (hvs : ∀ u ∈ vs, simpleWordB u = true) (hv : v = joinSpace vs)
    (hlen1 : (joinSpace (w :: rest)).length ≤ 4095)
    (hlen2 : (joinSpace (vs ++ rest)).length ≤ 4095)
    (hargs : (vs ++ rest).length ≤ 127) :
    aliasCmd al vars env ⟨w :: rest, inf, outf, app⟩ =
      some ⟨vs ++ rest, inf, outf, app⟩ := by
  rw [aliasCmd]
  simp only [cmd_t.mk.injEq]
  have horig : (joinSpace (w :: rest)).take 4095 = joinSpace (w :: rest) :=
    take_of_le _ 4095 hlen1
  have hexp := expandAliases_join al w v rest vs hlook hw hrest hvne hvs hv
    hlen2
  have hwordsL : ∀ u ∈ vs ++ rest, u ≠ [] ∧ ∀ c ∈ u, (c = ' ') = False := by
    intro u hu
    rcases List.mem_append.mp hu with h | h
    · exact simpleWord_nonempty_nosp u (hvs u h)
    · exact simpleWord_nonempty_nosp u (hrest u h)
  have hwordsR : ∀ u ∈ w :: rest, u ≠ [] ∧ ∀ c ∈ u, (c = ' ') = False := by
    intro u hu
    simp at hu
    cases hu with
    | inl h => rw [h]; exact simpleWord_nonempty_nosp w hw
    | inr h => exact simpleWord_nonempty_nosp u (hrest u h)
  have hne : (w :: rest : List (List Char)) ≠ [] := by simp
  rw [if_neg hne]
  simp only [horig, hexp]
  by_cases heq : joinSpace (vs ++ rest) = joinSpace (w :: rest)
  · rw [if_pos heq]
    have := joinSpace_inj (vs ++ rest) (w :: rest) hwordsL hwordsR heq
    rw [this]
  · rw [if_neg heq]
    have hsimple : ∀ u ∈ vs ++ rest, simpleWordB u = true := by
      intro u hu
      rcases List.mem_append.mp hu with h | h
      · exact hvs u h
      · exact hrest u h
    rw [tokenize_join vars env (vs ++ rest) hsimple (by omega)]
    simp only [Option.some.injEq, cmd_t.mk.injEq]
    rw [take_of_le _ 127 hargs]
    simp

theorem execLoop_ne_one (pl : pipeline_t) (br : cmd_t → Int)
    (h : pl.cmds.length ≠ 1) : ∀ l : List cmd_t, execLoop pl br l = none := by
  intro l
  induction l with
  | nil => rw [execLoop]
  | cons c rest ih =>
    rw [execLoop]
    by_cases he : c.argv = []
    · rw [if_pos he]
      exact ih
    · rw [if_neg he]
      rw [if_neg]
      intro hc
      exact h hc.1

theorem executeStatus_fastPath (pl : pipeline_t) (br : cmd_t → Int)
    (evs : List WStatus) :
    executeStatus pl br evs = (fastPath pl).elim 0 br := by
  obtain ⟨cmds, bg⟩ := pl
  cases cmds with
  | nil =>
    have hl : execLoop ⟨[], bg⟩ br [] = none := by rw [execLoop]
    have hfp : fastPath (pipeline_t.mk [] bg) = none := by rw [fastPath]
    rw [executeStatus, hl, hfp]
    cases bg <;> rfl
  | cons c rest =>
    cases rest with
    | nil =>
      have hfp : fastPath (pipeline_t.mk [c] bg) =
          (if c.argv ≠ [] ∧ isBuiltin (c.argv.headD []) = true ∧
            (pipeline_t.mk [c] bg).background = false ∧ c.infile = none ∧
            c.outfile = none then some c else none) := by
        rw [fastPath]
      by_cases he : c.argv = []
      · have hl : execLoop ⟨[c], bg⟩ br [c] = none := by
          rw [execLoop, if_pos he, execLoop]
        have hc2 : ¬ (c.argv ≠ [] ∧ isBuiltin (c.argv.headD []) = true ∧
            (pipeline_t.mk [c] bg).background = false ∧ c.infile = none ∧
            c.outfile = none) := fun hc => hc.1 he
        rw [executeStatus, hl, hfp, if_neg hc2]
        cases bg <;> rfl
      · by_cases hcond : isBuiltin (c.argv.headD []) = true ∧ bg = false ∧
            c.infile = none ∧ c.outfile = none
        · have h1 : (pipeline_t.mk [c] bg).cmds.length = 1 ∧
              isBuiltin (c.argv.headD []) = true ∧
              (pipeline_t.mk [c] bg).background = false ∧
              c.infile = none ∧ c.outfile = none :=
            ⟨rfl, hcond.1, hcond.2.1, hcond.2.2.1, hcond.2.2.2⟩
          have hl : execLoop ⟨[c], bg⟩ br [c] = some (br c) := by
            rw [execLoop, if_neg he, if_pos h1]
          have h2 : c.argv ≠ [] ∧ isBuiltin (c.argv.headD []) = true ∧
              (pipeline_t.mk [c] bg).background = false ∧ c.infile = none ∧
              c.outfile = none :=
            ⟨he, hcond.1, hcond.2.1, hcond.2.2.1, hcond.2.2.2⟩
          rw [executeStatus, hl, hfp, if_pos h2]
          rfl
        · have h1 : ¬ ((pipeline_t.mk [c] bg).cmds.length = 1 ∧
              isBuiltin (c.argv.headD []) = true ∧
              (pipeline_t.mk [c] bg).background = false ∧
              c.infile = none ∧ c.outfile = none) :=
            fun hc => hcond ⟨hc.2.1, hc.2.2.1, hc.2.2.2.1, hc.2.2.2.2⟩
          have hl : execLoop ⟨[c], bg⟩ br [c] = none := by
            rw [execLoop, if_neg he, if_neg h1]
          have h2 : ¬ (c.argv ≠ [] ∧ isBuiltin (c.argv.headD []) = true ∧
              (pipeline_t.mk [c] bg).background = false ∧ c.infile = none ∧
              c.outfile = none) :=
            fun hc => hcond ⟨hc.2.1, hc.2.2.1, hc.2.2.2.1, hc.2.2.2.2⟩
          rw [executeStatus, hl, hfp, if_neg h2]
          cases bg <;> rfl
    | cons c2 t =>
      have hfp : fastPath (pipeline_t.mk (c :: c2 :: t) bg) = none := by
        rw [fastPath]
      rw [executeStatus, hfp]
      rw [execLoop_ne_one (pipeline_t.mk (c :: c2 :: t) bg) br (by simp)]
      cases bg <;> rfl

theorem runJobOps_issued :
    ∀ (ops : List JobOp) (st : JobsSt),
      List.Pairwise (· < ·) (runJobOps st ops).2 ∧
      ∀ i ∈ (runJobOps st ops).2, st.next ≤ i := by
  intro ops
  induction ops with
  | nil =>
    intro st
    rw [runJobOps]
    simp
  | cons op rest ih =>
    intro st
    cases op with
    | add pg cmd s =>
      rw [runJobOps]
      by_cases hfull : 128 ≤ st.jobs.length
      · have ha : addJob st pg cmd s = (st, none) := by
          rw [addJob, if_pos hfull]
        rw [ha]
        simpa using ih st
      · have ha : addJob st pg cmd s =
            (⟨st.jobs ++ [⟨st.next, pg, cmd, s⟩], st.next + 1⟩, some st.next) := by
          rw [addJob, if_neg hfull]
        rw [ha]
        have hih := ih ⟨st.jobs ++ [⟨st.next, pg, cmd, s⟩], st.next + 1⟩
        constructor
        · simp only [Option.toList_some, List.singleton_append]
          refine List.Pairwise.cons ?_ hih.1
          intro b hb
          have := hih.2 b hb
          simp at this
          omega
        · intro i hi
          simp only [Option.toList_some, List.singleton_append,
            List.mem_cons] at hi
          cases hi with
          | inl h => omega
          | inr h =>
            have := hih.2 i h
            simp at this
            omega
    | removeDone =>
      rw [runJobOps]
      exact ih _
    | reapState pg s =>
      rw [runJobOps]
      exact ih _
    | ctlState id s =>
      rw [runJobOps]
      exact ih _

theorem any_eq_lookup (n : List Char) :
    ∀ (vars : List (List Char × List Char)),
      (vars.any (fun e => decide (e.1 = n)) = true) ↔ lookupVar vars n ≠ none := by
  intro vars
  induction vars with
  | nil => simp [lookupVar]
  | cons e t ih =>
    rw [lookupVar]
    by_cases he : e.1 = n
    · obtain ⟨a, b⟩ := e
      simp only at he
      subst he
      simp
    · obtain ⟨a, b⟩ := e
      simp only at he
      rw [if_neg he]
      simp only [List.any_cons, Bool.or_eq_true, decide_eq_true_eq]
      constructor
      · intro h
        cases h with
        | inl h => exact absurd h he
        | inr h => exact ih.mp h
      · intro h
        exact Or.inr (ih.mpr h)

theorem lookup_replFirst (n v : List Char) :
    ∀ (vars : List (List Char × List Char)), lookupVar vars n ≠ none →
      lookupVar (replFirstVar n v vars) n = some v := by
  intro vars
  induction vars with
  | nil =>
    intro h
    rw [lookupVar] at h
    exact absurd rfl h
  | cons e t ih =>
    intro h
    obtain ⟨a, b⟩ := e
    rw [replFirstVar]
    by_cases ha : a = n
    · rw [if_pos ha, lookupVar, if_pos ha]
    · rw [if_neg ha, lookupVar, if_neg ha]
      apply ih
      rw [lookupVar, if_neg ha] at h
      exact h

theorem map_fst_replFirst (n v : List Char) :
    ∀ (vars : List (List Char × List Char)),
      (replFirstVar n v vars).map Prod.fst = vars.map Prod.fst := by
  intro vars
  induction vars with
  | nil => rfl
  | cons e t ih =>
    obtain ⟨a, b⟩ := e
    rw [replFirstVar]
    by_cases ha : a = n
    · rw [if_pos ha]
      simp
    · rw [if_neg ha]
      simp [ih]

theorem lookup_none_not_mem (n : List Char) :
    ∀ (vars : List (List Char × List Char)), lookupVar vars n = none →
      n ∉ vars.map Prod.fst := by
  intro vars
  induction vars with
  | nil => intro _; simp
  | cons e t ih =>
    intro h
    obtain ⟨a, b⟩ := e
    rw [lookupVar] at h
    by_cases ha : a = n
    · rw [if_pos ha] at h
      exact absurd h (by simp)
    · rw [if_neg ha] at h
      simp only [List.map_cons, List.mem_cons]
      intro hc
      cases hc with
      | inl hc => exact ha hc.symm
      | inr hc => exact ih h hc

theorem nodup_snoc {α : Type} (l : List α) (a : α) (ha : a ∉ l)
    (hl : l.Nodup) : (l ++ [a]).Nodup := by
  induction l with
  | nil => simp
  | cons x t ih =>
    simp only [List.mem_cons, not_or] at ha
    simp only [List.nodup_cons] at hl
    simp only [List.cons_append, List.nodup_cons]
    constructor
    · simp only [List.mem_append, List.mem_singleton]
      intro hc
      cases hc with
      | inl h => exact hl.1 h
      | inr h => exact ha.1 h.symm
    · exact ih ha.2 hl.2

/-- The operator token strings of the tokenizer claim: `|`, `<`, `>`, `>>`,
`&`. -/
def opTokens : List (List Char) :=
  ["|".data, "<".data, ">".data, ">>".data, "&".data]

/-- C1 counterexample: in `a >b` the `>` is encountered outside quotes and
outside any word (right after whitespace), yet `tokenize` does not give it
its own token — the scan produces the word `>b`.  The claimed output
`[a, >, b]` is not produced. -/
theorem tokenize_op_adjacent_cex :
    tokenize [] [] "a >b".data = some ["a".data, ">b".data] ∧
    (["a".data, ">b".data] : List (List Char)) ≠
      ["a".data, ">".data, "b".data] := by decide

/-- C1 (amended): operator characters are recognized purely by whitespace
separation.  A whitespace-delimited `|`, `<`, `>`, `>>` or `&` forms its own
token between any two simple words; and an operator written inside double
quotes produces exactly the same bare token, indistinguishable from an
unquoted operator (quoting leaves no trace in the token). -/
theorem tokenize_ops_whitespace_delimited :
    ∀ (vars env : List (List Char × List Char)) (op : List Char),
      op ∈ opTokens → ∀ a b : List Char, simpleWordB a = true →
      simpleWordB b = true →
      tokenize vars env (joinSpace [a, op, b]) = some [a, op, b] ∧
      tokenize vars env (dquote :: (op ++ [dquote])) = some [op] := by
  intro vars env op hop a b ha hb
  have hops : simpleWordB op = true ∧
      (∀ c ∈ op, c ≠ dquote ∧ c ≠ '$' ∧ c ≠ bslash) ∧ op.length ≤ 4090 := by
    simp only [opTokens, List.mem_cons, List.not_mem_nil, or_false] at hop
    rcases hop with h | h | h | h | h <;> subst h <;>
      exact ⟨by decide, by decide, by decide⟩
  constructor
  · apply tokenize_join
    · intro u hu
      simp only [List.mem_cons, List.not_mem_nil, or_false] at hu
      rcases hu with h | h | h
      · subst h; exact ha
      · subst h; exact hops.1
      · subst h; exact hb
    · simp
  · exact tokenize_quoted vars env op hops.2.1 hops.2.2

/-- C1 witness: the theorem applied to `op = |`, `a = x`, `b = y`. -/
theorem tokenize_ops_whitespace_delimited_inst :
    tokenize [] [] (joinSpace ["x".data, "|".data, "y".data]) =
      some ["x".data, "|".data, "y".data] ∧
    tokenize [] [] (dquote :: ("|".data ++ [dquote])) = some ["|".data] :=
  tokenize_ops_whitespace_delimited [] [] "|".data (by decide)
    "x".data "y".data (by decide) (by decide)

/-- C2 counterexample: a one-command foreground pipeline running the external
command `false` whose only child exits with status 1.  `execute_pipeline`
returns 0, not the last command's exit status 1. -/
theorem executeStatus_last_command_cex :
    executeStatus ⟨[⟨["false".data], none, none, false⟩], false⟩
      (fun _ => 0) [WStatus.exited 1] = 0 ∧ (0 : Int) ≠ 1 := by decide

/-- C2 (amended): the status returned by `execute_pipeline` is the built-in's
return value when the single-builtin fast path applies (one command with
arguments, a built-in name, foreground, no redirection), and the literal 0
in every other case — for background pipelines and also for every foreground
pipeline, whatever statuses the children produce (`br` is the modelled
`run_builtin` result, `evs` the waited child statuses). -/
theorem executeStatus_fastpath_or_zero :
    ∀ (pl : pipeline_t) (br : cmd_t → Int) (evs : List WStatus),
      executeStatus pl br evs = (fastPath pl).elim 0 br :=
  fun pl br evs => executeStatus_fastPath pl br evs

/-- C3 counterexample: with alias `p → x | y`, the shell route (tokenize the
raw line, parse, then alias-expand per command in the executor) yields one
command with argv `[x, |, y]`, while the claimed route (alias-expand the
first word of the raw line, then tokenize and parse) yields a two-command
pipeline — so alias expansion is not applied before tokenization. -/
theorem alias_before_tokenize_cex :
    shellRoute [("p".data, "x | y".data)] [] [] "p".data =
      some ⟨[⟨["x".data, "|".data, "y".data], none, none, false⟩], false⟩ ∧
    claimRouteAliasFirst [("p".data, "x | y".data)] [] [] "p".data =
      some ⟨[⟨["x".data], none, none, false⟩,
             ⟨["y".data], none, none, false⟩], false⟩ ∧
    shellRoute [("p".data, "x | y".data)] [] [] "p".data ≠
      claimRouteAliasFirst [("p".data, "x | y".data)] [] [] "p".data := by
  decide

/-- C3 (amended): alias expansion happens per command inside the executor:
for a command whose argv starts with an alias name, the argv joined with
single spaces has exactly that first word replaced by the alias value, the
remainder follows after a single space, and the result is re-tokenized into
the new argv.  The replacement happens exactly once — the conclusion holds
for every alias table, so a value whose own first word is again an alias
name is not expanded further. -/
theorem aliasCmd_replaces_first_word_once :
    ∀ (al vars env : List (List Char × List Char)) (w v : List Char)
      (rest vs : List (List Char)) (inf outf : Option (List Char))
      (app : Bool),
      lookupVar al w = some v → simpleWordB w = true →
      (∀ u ∈ rest, simpleWordB u = true) → vs ≠ [] →
      (∀ u ∈ vs, simpleWordB u = true) → v = joinSpace vs →
      (joinSpace (w :: rest)).length ≤ 4095 →
      (joinSpace (vs ++ rest)).length ≤ 4095 → (vs ++ rest).length ≤ 127 →
      aliasCmd al vars env ⟨w :: rest, inf, outf, app⟩ =
        some ⟨vs ++ rest, inf, outf, app⟩ :=
  fun al vars env w v rest vs inf outf app h1 h2 h3 h4 h5 h6 h7 h8 h9 =>
    aliasCmd_expand al vars env w v rest vs inf outf app h1 h2 h3 h4 h5 h6
      h7 h8 h9

/-- C3 witness: the non-recursion scenario `alias a = "a b"` — the command
`a c` becomes `a b c`, with the alias applied exactly once. -/
theorem aliasCmd_replaces_first_word_once_inst :
    aliasCmd [("a".data, "a b".data)] [] []
      ⟨["a".data, "c".data], none, none, false⟩ =
      some ⟨["a".data, "b".data, "c".data], none, none, false⟩ :=
  aliasCmd_replaces_first_word_once [("a".data, "a b".data)] [] []
    "a".data "a b".data ["c".data] ["a".data, "b".data] none none false
    (by decide) (by decide) (by decide) (by decide) (by decide) (by decide)
    (by decide) (by decide) (by decide)

/-- C4 counterexample: `$.` — the `$` is not followed by a name character,
and the claim says such a `$` is retained literally; `expand_env_vars`
instead consumes the `$` (looking up the empty name and finding nothing),
producing `.`. -/
theorem expand_env_bare_dollar_cex :
    expandEnvVars [] [] "$.".data = ".".data ∧
    (".".data : List Char) ≠ "$.".data := by decide

/-- C4 (amended): `expand_env_vars` equals, up to the 4090-character output
truncation, the expansion that consumes every `$` together with the maximal
run of `[A-Za-z0-9_]` characters after it (capped at 127) as the name —
digit-leading names included — replacing them by the shell-variable value if
set, else the process-environment value, else the empty string; a `$` is
never retained literally. -/
theorem expandEnvVars_spec_truncated :
    ∀ (vars env : List (List Char × List Char)) (s : List Char),
      expandEnvVars vars env s = (expandEnvVarsSpec vars env s).take 4090 :=
  fun vars env s => expand_eq_spec_trunc vars env s

/-- C5 counterexample: `parse_tokens` does not drop empty commands.  On
`a | | b` the empty command between the two pipes is kept, and on the token
list `|` the resulting pipeline's only command is empty — it contains no
non-empty command at all. -/
theorem parse_empty_commands_kept_cex :
    parseTokens ["a".data, "|".data, "|".data, "b".data] =
      ⟨[⟨["a".data], none, none, false⟩, ⟨[], none, none, false⟩,
        ⟨["b".data], none, none, false⟩], false⟩ ∧
    parseTokens ["|".data] = ⟨[⟨[], none, none, false⟩], false⟩ := by decide

/-- C5 (amended): the parser is total and never fails; every `|` token emits
the accumulated command even when it is empty (empty commands are retained
in the pipeline, not dropped), so for token lists without redirection
operators the pipeline holds between `pipeCount` and `pipeCount + 1`
commands; empty commands are skipped later by the executor's fork loop
(every launched command has a non-empty argv). -/
theorem parse_total_command_counts :
    ∀ toks : List (List Char),
      (∀ t ∈ toks, t ≠ "<".data ∧ t ≠ ">".data ∧ t ≠ ">>".data) →
      pipeCount toks ≤ (parseTokens toks).cmds.length ∧
      (parseTokens toks).cmds.length ≤ pipeCount toks + 1 ∧
      ∀ c ∈ launched (parseTokens toks), c.argv ≠ [] := by
  intro toks h
  refine ⟨?_, ?_, ?_⟩
  · have := parseGo_len_ge toks.length toks emptyCmd [] false (le_refl _) h
    simpa using this
  · have := parseGo_len_le toks.length toks emptyCmd [] false (le_refl _)
    simpa using this
  · intro c hc
    simp only [launched, List.mem_filter, decide_eq_true_eq] at hc
    exact hc.2

/-- C5 witness: the theorem applied to the token list `a | | b`. -/
theorem parse_total_command_counts_inst :
    pipeCount ["a".data, "|".data, "|".data, "b".data] ≤
      (parseTokens ["a".data, "|".data, "|".data, "b".data]).cmds.length ∧
    (parseTokens ["a".data, "|".data, "|".data, "b".data]).cmds.length ≤
      pipeCount ["a".data, "|".data, "|".data, "b".data] + 1 :=
  ⟨(parse_total_command_counts ["a".data, "|".data, "|".data, "b".data]
      (by decide)).1,
   (parse_total_command_counts ["a".data, "|".data, "|".data, "b".data]
      (by decide)).2.1⟩

/-- C6: `parse_tokens` writes at most `pipeCount + 1` commands, so any token
list with at most 16 pipe-delimited segments (pipe count at most 15) stays
within the 16-element `cmds` array; and because `parse_tokens` itself never
checks the command count, a 65-character line of 17 pipe-separated words —
33 tokens, well under the 255-token cap — parses to 17 commands, one past
the array (an out-of-bounds write in the C program). -/
theorem parse_cmds_inbounds_and_overflow :
    (∀ toks : List (List Char), pipeCount toks ≤ 15 →
      (parseTokens toks).cmds.length ≤ 16) ∧
    tokenize [] [] ((List.replicate 16 ("a | ".data)).flatten ++ "a".data) =
      some ((List.replicate 16 ["a".data, "|".data]).flatten ++ ["a".data]) ∧
    ((List.replicate 16 ["a".data, "|".data]).flatten ++
      ["a".data]).length ≤ 255 ∧
    16 < (parseTokens ((List.replicate 16 ["a".data, "|".data]).flatten
      ++ ["a".data])).cmds.length := by
  refine ⟨?_, by decide, by decide, by decide⟩
  intro toks hp
  have := parseGo_len_le toks.length toks emptyCmd [] false (le_refl _)
  simp at this
  rw [parseTokens]
  omega

/-- C6 witness: the bound applied to the empty token list. -/
theorem parse_cmds_inbounds_and_overflow_inst :
    (parseTokens ([] : List (List Char))).cmds.length ≤ 16 :=
  parse_cmds_inbounds_and_overflow.1 [] (by decide)

/-- C7 counterexample: `x = \` (one backslash) contains no double quote and
no `$`, yet tokenizing `"\"` yields the token `"` — the backslash escapes
the closing quote — instead of the claimed `[x] = [\]`. -/
theorem tokenize_quoted_backslash_cex :
    tokenize [] [] [dquote, bslash, dquote] = some [[dquote]] ∧
    ([[dquote]] : List (List Char)) ≠ [[bslash]] := by decide

/-- C7 (amended): for every string `x` with no double quote, no `$` and no
backslash, of length at most 4090 (the `$`-expansion output cap), tokenizing
`x` enclosed in double quotes yields exactly the one-element token list
`[x]`. -/
theorem tokenize_quote_preservation :
    ∀ (vars env : List (List Char × List Char)) (x : List Char),
      (∀ c ∈ x, c ≠ dquote ∧ c ≠ '$' ∧ c ≠ bslash) → x.length ≤ 4090 →
      tokenize vars env (dquote :: (x ++ [dquote])) = some [x] :=
  fun vars env x hx hlen => tokenize_quoted vars env x hx hlen

/-- C7 witness: the theorem applied to `x = a b`. -/
theorem tokenize_quote_preservation_inst :
    tokenize [] [] (dquote :: ("a b".data ++ [dquote])) = some ["a b".data] :=
  tokenize_quote_preservation [] [] "a b".data (by decide) (by decide)

set_option maxRecDepth 100000 in
/-- C8 counterexample: a line of 257 whitespace-separated words tokenizes to
exactly 255 tokens — the list is truncated at 255 (`MAX_TOKENS - 1`, because
the check `ti >= MAX_TOKENS-1` runs after the increment), not at the claimed
cap of 256. -/
theorem tokenize_cap_255_not_256_cex :
    tokenize [] [] ((List.replicate 257 "a ".data).flatten) =
      some (List.replicate 255 ("a".data)) ∧ (255 : Nat) ≠ 256 := by
  decide

/-- C8 (amended): the tokenizer produces at most 255 tokens
(`MAX_TOKENS - 1`); longer inputs are truncated silently at 255, with no
error (the result is still `some`). -/
theorem tokenize_token_cap :
    ∀ (vars env : List (List Char × List Char)) (line : List Char)
      (r : List (List Char)), tokenize vars env line = some r →
      r.length ≤ 255 :=
  fun vars env line r h => tokenize_count_le vars env line r h

/-- C8 witness: the bound applied to the line `a`. -/
theorem tokenize_token_cap_inst :
    (["a".data] : List (List Char)).length ≤ 255 :=
  tokenize_token_cap [] [] "a".data ["a".data] (by decide)

/-- C9: across one session — any sequence of job-table operations (adds from
the executor, reaps, `fg`/`bg` state changes, removals of DONE jobs) — the
job ids issued by `add_job` strictly increase in chronological order and are
unique for the shell's lifetime, including ids of jobs already removed from
the table. -/
theorem job_ids_strictly_increasing :
    ∀ ops : List JobOp, List.Pairwise (· < ·) (issuedIds ops) ∧
      (issuedIds ops).Nodup := by
  intro ops
  have h := runJobOps_issued ops initJobs
  exact ⟨h.1, List.Pairwise.imp (fun hlt => Nat.ne_of_lt hlt) h.1⟩

/-- C10 counterexample: with the shell-variable table full (100 entries,
`MAX_VARS`), `set x 1` neither inserts nor replaces: the table is returned
unchanged and still has no entry for `x` (the claim says every `set NAME
VALUE` inserts or replaces).  The status is still 0 and the environment
untouched. -/
theorem builtin_set_full_table_cex :
    builtinSet ["set".data, "x".data, "1".data]
      ((List.range 100).map (fun i => ((Nat.repr i).data, ([] : List Char))))
      [] =
      (0, (List.range 100).map
        (fun i => ((Nat.repr i).data, ([] : List Char))), []) ∧
    lookupVar ((List.range 100).map
      (fun i => ((Nat.repr i).data, ([] : List Char)))) "x".data = none := by
  decide

/-- C10 (amended): `set NAME VALUE` writes only the shell-variable table and
returns 0, leaving the process environment unchanged; it replaces the value
of the first entry with that name when one exists (keeping the name list
unchanged), appends a new entry when the name is absent and the table holds
fewer than 100 entries, silently does nothing when the table is full, and
preserves uniqueness of names. -/
theorem builtin_set_shell_vars_only :
    ∀ (vars env : List (List Char × List Char)) (n v : List Char),
      builtinSet ["set".data, n, v] vars env =
        (0, setShellVar vars n v, env) ∧
      (lookupVar vars n ≠ none →
        lookupVar (setShellVar vars n v) n = some v ∧
        (setShellVar vars n v).map Prod.fst = vars.map Prod.fst) ∧
      (lookupVar vars n = none → vars.length < 100 →
        setShellVar vars n v = vars ++ [(n, v)]) ∧
      (lookupVar vars n = none → 100 ≤ vars.length →
        setShellVar vars n v = vars) ∧
      ((vars.map Prod.fst).Nodup → ((setShellVar vars n v).map Prod.fst).Nodup) := by
  intro vars env n v
  refine ⟨rfl, ?_, ?_, ?_, ?_⟩
  · intro h
    have hany : vars.any (fun e => decide (e.1 = n)) = true :=
      (any_eq_lookup n vars).mpr h
    rw [setShellVar, if_pos hany]
    exact ⟨lookup_replFirst n v vars h, map_fst_replFirst n v vars⟩
  · intro h hlen
    have hany : ¬ vars.any (fun e => decide (e.1 = n)) = true :=
      fun ha => (any_eq_lookup n vars).mp ha h
    rw [setShellVar, if_neg hany, if_pos hlen]
  · intro h hlen
    have hany : ¬ vars.any (fun e => decide (e.1 = n)) = true :=
      fun ha => (any_eq_lookup n vars).mp ha h
    rw [setShellVar, if_neg hany, if_neg (by omega)]
  · intro hnodup
    by_cases hany : vars.any (fun e => decide (e.1 = n)) = true
    · rw [setShellVar, if_pos hany, map_fst_replFirst n v vars]
      exact hnodup
    · have hnone : lookupVar vars n = none := by
        by_contra hc
        exact hany ((any_eq_lookup n vars).mpr hc)
      rw [setShellVar, if_neg hany]
      by_cases hlen : vars.length < 100
      · rw [if_pos hlen, List.map_append]
        exact nodup_snoc (vars.map Prod.fst) n
          (lookup_none_not_mem n vars hnone) hnodup
      · rw [if_neg hlen]
        exact hnodup

/-- C10 witness: replacing the existing variable `a` with a new value. -/
theorem builtin_set_shell_vars_only_inst :
    lookupVar (setShellVar [("a".data, "b".data)] "a".data "c".data)
      "a".data = some ("c".data) ∧
    (setShellVar [("a".data, "b".data)] "a".data "c".data).map Prod.fst =
      [("a".data, "b".data)].map Prod.fst :=
  (builtin_set_shell_vars_only [("a".data, "b".data)] [] "a".data
    "c".data).2.1 (by decide)
